import Mathlib

set_option maxRecDepth 10000

/-!
Shallow embedding of the genetic-algorithm TSP program in `src/main.rs`
(repository `genetic-rust`), together with theorems settling the claims
about it.

Modelling conventions, used throughout:

* `f64` values are modelled as real numbers (`ℝ`); the `f64` fitness value
  `1.0 / cost`, whose argument `cost` is always a nonnegative finite sum of
  square roots, is modelled in `EReal` so that the IEEE result `+inf` of a
  division by zero is represented faithfully (as `⊤`).
* Rust panics (index out of bounds, `usize` subtraction underflow,
  `Uniform::new` on an empty range, indexing an empty population) are
  modelled by `Option`-valued functions returning `none`, or by explicit
  side conditions on the theorems.
* every random draw made through `rand` (crossover points, parent picks,
  mutation points, mutation coin flips, the initial shuffles) is passed in
  as an explicit argument; `Uniform::new(0, n)` guarantees a draw in
  `[0, n)`, which appears as a hypothesis where it matters.
* `value as usize` on a nonnegative `f64` truncates toward zero; this is
  `f64toUsize` below.
-/

namespace GeneticRust

/-- A city, `struct City { x: f64, y: f64 }` from the source. -/
structure City where
  x : ℝ
  y : ℝ

/-- Euclidean distance between two cities, as computed inside the fitness
loop of `Path::calculate_fitness`:
`((a.x - b.x).powf(2.0) + (a.y - b.y).powf(2.0)).sqrt()`. -/
noncomputable def cityDist (a b : City) : ℝ :=
  Real.sqrt ((a.x - b.x) ^ 2 + (a.y - b.y) ^ 2)

/-- The state of the accumulator `cost` in `Path::calculate_fitness` after
the first `k` iterations of `for i in 0..path_length - 1`.  Iteration `i`
reads `path[i]`, `path[i + 1]`, `city_list[path[i]]` and
`city_list[path[i + 1]]`; each read is modelled by `Option` so an
out-of-bounds access (a Rust panic) yields `none`. -/
noncomputable def costAux (path : List ℕ) (city_list : List City) : ℕ → Option ℝ
  | 0 => some 0
  | k + 1 => do
    let c ← costAux path city_list k
    let i1 ← path[k]?
    let i2 ← path[k + 1]?
    let a ← city_list[i1]?
    let b ← city_list[i2]?
    some (c + cityDist a b)

/-- IEEE model of the `f64` division `1.0 / c` for the nonnegative finite
costs produced by the fitness loop: division by zero gives `+inf` (`⊤`),
otherwise the real reciprocal. -/
noncomputable def recipF (c : ℝ) : EReal :=
  if c = 0 then ⊤ else ((1 / c : ℝ) : EReal)

/-- `Path::calculate_fitness(path, city_list)` from the source.  The loop
bound is `city_list.len() - 1` (the source shadows it as `path_length`);
when `city_list` is empty that `usize` subtraction underflows and the
program panics, modelled by `none`. -/
noncomputable def calculate_fitness (path : List ℕ) (city_list : List City) :
    Option EReal :=
  if city_list.length = 0 then none
  else (costAux path city_list (city_list.length - 1)).map recipF

/-- Total wrapper around `calculate_fitness`, used when building `Path`
values whose orders are known to make the fitness computation succeed
(`fitnessD_eq` below discharges that). -/
noncomputable def fitnessD (path : List ℕ) (city_list : List City) : EReal :=
  (calculate_fitness path city_list).getD 0

/-- `struct Path { fitness: f64, order: Vec<usize> }` from the source. -/
structure Path where
  fitness : EReal
  order : List ℕ

/-- `Path::crossover_order(mother, father)` from the source, with the
uniformly drawn `crossover_point` (a draw from `[0, mother.len())`) made
explicit: the prefix `mother[0..crossover_point]` followed by the entries
of `father` not occurring in that prefix, in `father`'s order. -/
def crossover_order (mother father : List ℕ) (crossover_point : ℕ) : List ℕ :=
  let mother_dna := mother.take crossover_point
  let father_dna := father.filter (fun d => !(mother_dna.contains d))
  mother_dna ++ father_dna

/-- `Path::breed(self, other, city_list)` from the source, with the
crossover point passed through to `crossover_order`. -/
noncomputable def Path.breed (self other : Path) (city_list : List City)
    (crossover_point : ℕ) : Path :=
  let order := crossover_order self.order other.order crossover_point
  { fitness := fitnessD order city_list, order := order }

/-- `Vec::swap(point_one, point_two)` on a list: the entry at `i` becomes
the old entry at `j` and vice versa.  For the in-range indices delivered by
`Uniform::new(0, len)` this is exactly the Rust swap; both `set`s read from
the original list, so the simultaneous exchange is faithful. -/
def swapList (l : List ℕ) (i j : ℕ) : List ℕ :=
  (l.set i (l.getD j 0)).set j (l.getD i 0)

/-- `Path::mutate(self, city_list)` from the source, with the two uniform
draws from `[0, self.order.len())` made explicit: swap the two entries and
recompute the fitness. -/
noncomputable def Path.mutate (self : Path) (city_list : List City)
    (point_one point_two : ℕ) : Path :=
  let order := swapList self.order point_one point_two
  { fitness := fitnessD order city_list, order := order }

/-- A sequence of transpositions applied left to right.  `SliceRandom::
shuffle` (Fisher–Yates, from the external `rand` crate) performs exactly
such a sequence of in-range swaps, so a shuffle is modelled by the list of
swap pairs it draws. -/
def applySwaps (l : List ℕ) : List (ℕ × ℕ) → List ℕ
  | [] => l
  | (i, j) :: rest => applySwaps (swapList l i j) rest

/-- `initial_population(city_list, population_count)` from the source:
each individual starts from `base_list = (0..city_list.len()).collect()`,
shuffles it (the shuffle's swap sequence is explicit), and caches the
fitness. -/
noncomputable def initial_population (city_list : List City)
    (population_count : ℕ) (shuffles : ℕ → List (ℕ × ℕ)) : List Path :=
  (List.range population_count).map (fun k =>
    let p := applySwaps (List.range city_list.length) (shuffles k)
    { fitness := fitnessD p city_list, order := p })

/-- Spec-side definition (§3/§4.2 of the spec): the cities visited by an
order, `order` mapped through the city list. -/
def tourCities (order : List ℕ) (city_list : List City) : List City :=
  order.map (fun k => city_list.getD k ⟨0, 0⟩)

/-- Spec-side definition (§3/§4.2 of the spec): the total length of an open
path through a list of cities — the sum of the Euclidean distances between
consecutive pairs, with no return edge, hence `length - 1` edges. -/
noncomputable def pathLen : List City → ℝ
  | a :: b :: rest => cityDist a b + pathLen (b :: rest)
  | _ => 0

/-- Spec-side definition: total open-path distance of an order over a city
list ("sum consecutive-pair distances along `order`"). -/
noncomputable def specTotalDistance (order : List ℕ) (city_list : List City) : ℝ :=
  pathLen (tourCities order city_list)

/-- The Rust cast `x as usize` applied to a nonnegative-or-small `f64`:
truncation toward zero, saturating at `0` from below.  Used for
`breeding_count` and `surviving_parent_count` in
`Simulation::generate_next_generation`. -/
noncomputable def f64toUsize (x : ℝ) : ℕ := (⌊x⌋).toNat

/-- `struct Simulation` from the source. -/
structure Simulation where
  population : List Path
  city_list : List City
  max_iterations : ℕ
  crossover_rate : ℝ
  mutation_rate : ℝ
  survival_rate : ℝ

/-- `Simulation::new` from the source: it stores every argument verbatim and
performs no validation whatsoever. -/
def Simulation.new (initial_population : List Path) (city_list : List City)
    (max_iterations : ℕ) (crossover_rate mutation_rate survival_rate : ℝ) :
    Simulation :=
  { population := initial_population
    city_list := city_list
    max_iterations := max_iterations
    crossover_rate := crossover_rate
    mutation_rate := mutation_rate
    survival_rate := survival_rate }

/-- All random draws consumed by one `generate_next_generation` call:
`parentChoice i` is the draw `rs` from `Uniform::new(0, breeding_population
.len())` for offspring slot `i`; `crossChoice i` is the crossover point
drawn inside the `breed` call for slot `i`; `mutateFlag p` is the
`gen_bool(mutation_rate)` coin for index `p` of the new generation; and
`mutatePoints p` are the two swap points drawn by `mutate` there. -/
structure GenChoices where
  parentChoice : ℕ → ℕ
  crossChoice : ℕ → ℕ
  mutateFlag : ℕ → Bool
  mutatePoints : ℕ → ℕ × ℕ

open Classical in
/-- The in-place `self.population.sort_by(|a, b| b.fitness.partial_cmp(&a.
fitness).unwrap())`: a stable sort that puts higher fitness first.  The
comparator never sees a NaN here (costs are sums of square roots), so the
`unwrap` cannot panic and the comparison is the total order on `EReal`. -/
noncomputable def sortDesc (population : List Path) : List Path :=
  population.mergeSort (fun a b => decide (b.fitness ≤ a.fitness))

/-- Default `Path` used to totalize the two indexing operations
`breeding_population[i % breeding_population.len()]` and
`breeding_population[rs]`; the draws are in range whenever the breeding
population is non-empty, which the theorems assume. -/
def defaultPath : Path := { fitness := 0, order := [] }

/-- `Simulation::generate_next_generation` up to, and excluding, the
mutation pass: sort descending by fitness, compute `breeding_count` and
`surviving_parent_count` by the two `as usize` casts, breed
`population.len() - surviving_parent_count - 2` offspring (slot `i` breeds
pool member `i % pool.len()` with pool member `rs`), and assemble
elites ++ offspring ++ the two last (lowest-fitness) sorted individuals.
The `usize` subtractions are modelled by truncating `ℕ` subtraction; the
theorems' side conditions exclude the underflow panic of the source. -/
noncomputable def assembleNextGeneration (population : List Path)
    (city_list : List City) (crossover_rate survival_rate : ℝ)
    (ch : GenChoices) : List Path :=
  let sorted := sortDesc population
  let breeding_count := f64toUsize ((population.length : ℝ) * crossover_rate)
  let surviving_parent_count :=
    f64toUsize ((breeding_count : ℝ) * survival_rate)
  let breeding_population := sorted.take breeding_count
  let offspring :=
    (List.range (population.length - surviving_parent_count - 2)).map
      (fun i =>
        (breeding_population.getD (i % breeding_population.length)
            defaultPath).breed
          (breeding_population.getD (ch.parentChoice i) defaultPath)
          city_list (ch.crossChoice i))
  sorted.take surviving_parent_count ++ offspring
    ++ sorted.drop (population.length - 2)

/-- The final loop of `Simulation::generate_next_generation`: each index `p`
of the assembled generation is mutated in place when the `gen_bool
(mutation_rate)` coin for `p` comes up true. -/
noncomputable def mutationPass (city_list : List City) (ch : GenChoices) :
    ℕ → List Path → List Path
  | _, [] => []
  | p, path :: rest =>
    (if ch.mutateFlag p then
        path.mutate city_list (ch.mutatePoints p).1 (ch.mutatePoints p).2
      else path) :: mutationPass city_list ch (p + 1) rest

/-- `Simulation::generate_next_generation` on a population list: assembly
followed by the mutation pass (the source then stores the result back into
`self.population`, done at the `Simulation` level below). -/
noncomputable def generate_next_generation (population : List Path)
    (city_list : List City) (crossover_rate survival_rate : ℝ)
    (ch : GenChoices) : List Path :=
  mutationPass city_list ch 0
    (assembleNextGeneration population city_list crossover_rate survival_rate ch)

/-- `Simulation::generate_next_generation` as a state update on the
`Simulation` record. -/
noncomputable def Simulation.generate_next_generation (sim : Simulation)
    (ch : GenChoices) : Simulation :=
  { sim with
    population := GeneticRust.generate_next_generation sim.population
      sim.city_list sim.crossover_rate sim.survival_rate ch }

open Classical in
/-- `Simulation::find_fittest` from the source: start from `population[0]`
(a panic — `none` — on an empty population) and scan indices `1..len`,
replacing the current best exactly when `p.fitness > fittest.fitness`; the
result is a clone (a value, not a reference). -/
noncomputable def find_fittest (population : List Path) : Option Path :=
  match population with
  | [] => none
  | p :: rest =>
    some (rest.foldl
      (fun fittest q => if fittest.fitness < q.fitness then q else fittest) p)

open Classical in
/-- The `for _ in 0..self.max_iterations` loop of `Simulation::run`, one
`GenChoices` bundle per iteration: advance the generation, find the fittest
of the new population (`none` on the empty-population panic), and replace
the running best exactly when `challenger.fitness > fittest.fitness`. -/
noncomputable def runLoop (city_list : List City)
    (crossover_rate survival_rate : ℝ) :
    List GenChoices → List Path → Path → Option (List Path × Path)
  | [], population, fittest => some (population, fittest)
  | ch :: rest, population, fittest => do
    let next := generate_next_generation population city_list crossover_rate
      survival_rate ch
    let challenger ← find_fittest next
    runLoop city_list crossover_rate survival_rate rest next
      (if fittest.fitness < challenger.fitness then challenger else fittest)

/-- `Simulation::run` including the value of its local `fittest` variable at
the end of the loop: the final population together with the best-ever
`Path`.  The source itself then drops this `Path` (see `Simulation.run`). -/
noncomputable def Simulation.runCore (sim : Simulation)
    (cs : ℕ → GenChoices) : Option (List Path × Path) := do
  let fittest ← find_fittest sim.population
  runLoop sim.city_list sim.crossover_rate sim.survival_rate
    ((List.range sim.max_iterations).map cs) sim.population fittest

/-- `Simulation::run` from the source.  Its Rust type is `fn run(&mut self)
-> ()`: the observable results are the mutated `self` and the lines it
prints, and the only active print is `println!("starting iterations")` (the
per-generation and final prints are commented out).  The best-ever `Path`
tracked by the loop is discarded, exactly as in the source. -/
noncomputable def Simulation.run (sim : Simulation) (cs : ℕ → GenChoices) :
    Option (Simulation × List String) :=
  (sim.runCore cs).map
    (fun r => ({ sim with population := r.1 }, ["starting iterations"]))

/-- The population after `k` calls of `generate_next_generation`, iteration
`k` consuming the draw bundle `cs k`. -/
noncomputable def popAt (population : List Path) (city_list : List City)
    (crossover_rate survival_rate : ℝ) (cs : ℕ → GenChoices) : ℕ → List Path
  | 0 => population
  | k + 1 =>
    generate_next_generation
      (popAt population city_list crossover_rate survival_rate cs k)
      city_list crossover_rate survival_rate (cs k)

/-! ### Permutation lemmas for the operators (claim C1) -/

lemma swap_cons_perm : ∀ (xs : List ℕ) (k x : ℕ), k < xs.length →
    (xs.getD k 0 :: xs.set k x).Perm (x :: xs)
  | [], _, _, h => by simp at h
  | y :: ys, 0, x, _ => by
      simpa using List.Perm.swap x y ys
  | y :: ys, k + 1, x, h => by
      have ih := swap_cons_perm ys k x (by simpa using h)
      simp only [List.getD_cons_succ, List.set_cons_succ]
      exact (List.Perm.swap y (ys.getD k 0) (ys.set k x)).trans
        ((ih.cons y).trans (List.Perm.swap x y ys))

lemma swapList_length (l : List ℕ) (i j : ℕ) :
    (swapList l i j).length = l.length := by
  simp [swapList]

lemma swapList_perm : ∀ (l : List ℕ) (i j : ℕ), i < l.length → j < l.length →
    (swapList l i j).Perm l
  | [], i, _, hi, _ => by simp at hi
  | x :: xs, 0, 0, _, _ => by simp [swapList]
  | x :: xs, 0, j + 1, _, hj => by
      have hj' : j < xs.length := by simpa using hj
      simpa [swapList] using swap_cons_perm xs j x hj'
  | x :: xs, i + 1, 0, hi, _ => by
      have hi' : i < xs.length := by simpa using hi
      simpa [swapList] using swap_cons_perm xs i x hi'
  | x :: xs, i + 1, j + 1, hi, hj => by
      have ih := swapList_perm xs i j (by simpa using hi) (by simpa using hj)
      simpa [swapList] using ih.cons x

lemma not_contains_iff (l : List ℕ) (a : ℕ) :
    (!(l.contains a)) = true ↔ a ∉ l := by
  simp [List.contains]

lemma crossover_order_perm (mother father : List ℕ) (cp n : ℕ)
    (hm : mother.Perm (List.range n)) (hf : father.Perm (List.range n)) :
    (crossover_order mother father cp).Perm (List.range n) := by
  have hmother : mother.Nodup := hm.symm.nodup (List.nodup_range n)
  have hfather : father.Nodup := hf.symm.nodup (List.nodup_range n)
  have hmd : (mother.take cp).Nodup :=
    List.Nodup.sublist (List.take_sublist cp mother) hmother
  have hfd : (father.filter
      (fun d => !((mother.take cp).contains d))).Nodup :=
    List.Nodup.filter _ hfather
  have hnodup : (crossover_order mother father cp).Nodup := by
    refine List.Nodup.append hmd hfd ?_
    intro a ha haf
    exact (not_contains_iff _ _).mp (List.mem_filter.mp haf).2 ha
  refine (List.perm_ext_iff_of_nodup hnodup (List.nodup_range n)).mpr ?_
  intro a
  constructor
  · intro ha
    rcases List.mem_append.mp ha with h | h
    · exact hm.mem_iff.mp (List.mem_of_mem_take h)
    · exact hf.mem_iff.mp (List.mem_filter.mp h).1
  · intro ha
    by_cases hmem : a ∈ mother.take cp
    · exact List.mem_append.mpr (Or.inl hmem)
    · exact List.mem_append.mpr (Or.inr (List.mem_filter.mpr
        ⟨hf.mem_iff.mpr ha, (not_contains_iff _ _).mpr hmem⟩))

lemma applySwaps_perm : ∀ (sw : List (ℕ × ℕ)) (l : List ℕ),
    (∀ pr ∈ sw, pr.1 < l.length ∧ pr.2 < l.length) →
    (applySwaps l sw).Perm l
  | [], l, _ => List.Perm.refl l
  | (i, j) :: rest, l, h => by
      have hij := h (i, j) (List.mem_cons_self _ _)
      have hrest : ∀ pr ∈ rest, pr.1 < (swapList l i j).length ∧
          pr.2 < (swapList l i j).length := by
        intro pr hpr
        rw [swapList_length]
        exact h pr (List.mem_cons_of_mem _ hpr)
      exact (applySwaps_perm rest (swapList l i j) hrest).trans
        (swapList_perm l i j hij.1 hij.2)

/-- C1: every Tour produced by `breed` has an order that is a permutation of
`[0, n)` whenever both parents' orders are; every Tour after `mutate` (two
in-range swap points) keeps that property; and every Tour produced by the
initial population generator (a shuffle, i.e. a sequence of in-range swaps,
of `0..numCities`) has an order that is a permutation of
`[0, numCities)`. -/
theorem claim_C1 :
    (∀ (self other : Path) (city_list : List City) (cp n : ℕ),
        self.order.Perm (List.range n) → other.order.Perm (List.range n) →
        (self.breed other city_list cp).order.Perm (List.range n)) ∧
    (∀ (p : Path) (city_list : List City) (i j n : ℕ),
        p.order.Perm (List.range n) → i < p.order.length →
        j < p.order.length →
        (p.mutate city_list i j).order.Perm (List.range n)) ∧
    (∀ (city_list : List City) (count : ℕ) (shuffles : ℕ → List (ℕ × ℕ)),
        (∀ k, ∀ pr ∈ shuffles k,
            pr.1 < city_list.length ∧ pr.2 < city_list.length) →
        ∀ q ∈ initial_population city_list count shuffles,
          q.order.Perm (List.range city_list.length)) := by
  refine ⟨?_, ?_, ?_⟩
  · intro self other city_list cp n hs ho
    exact crossover_order_perm self.order other.order cp n hs ho
  · intro p city_list i j n hp hi hj
    exact (swapList_perm p.order i j hi hj).trans hp
  · intro city_list count shuffles hsw q hq
    simp only [initial_population, List.mem_map] at hq
    obtain ⟨k, -, rfl⟩ := hq
    have := applySwaps_perm (shuffles k) (List.range city_list.length) ?_
    · simpa using this
    · intro pr hpr
      simpa using hsw k pr hpr

/-! ### The fitness loop computes the spec's consecutive-pair sum (C2) -/

lemma getElemQ_eq_some_getD {α : Type} (l : List α) (i : ℕ) (d : α)
    (h : i < l.length) : l[i]? = some (l.getD i d) := by
  rw [List.getElem?_eq_getElem h]
  simp [List.getD_eq_getElem?_getD, List.getElem?_eq_getElem h]

lemma getD_mem_of_lt {α : Type} (l : List α) (i : ℕ) (d : α)
    (h : i < l.length) : l.getD i d ∈ l := by
  rw [List.getD_eq_getElem?_getD, List.getElem?_eq_getElem h]
  exact List.getElem_mem h

lemma costAux_some (path : List ℕ) (cities : List City) :
    ∀ k, k < path.length →
    (∀ i, i ≤ k → path.getD i 0 < cities.length) →
    costAux path cities k = some (∑ i ∈ Finset.range k,
      cityDist (cities.getD (path.getD i 0) ⟨0, 0⟩)
        (cities.getD (path.getD (i + 1) 0) ⟨0, 0⟩))
  | 0, _, _ => by simp [costAux]
  | k + 1, hk, hb => by
    have hk' : k < path.length := Nat.lt_of_succ_lt hk
    have ih := costAux_some path cities k hk'
      (fun i hi => hb i (le_trans hi (Nat.le_succ k)))
    have h1 : path[k]? = some (path.getD k 0) :=
      getElemQ_eq_some_getD _ _ _ hk'
    have h2 : path[k + 1]? = some (path.getD (k + 1) 0) :=
      getElemQ_eq_some_getD _ _ _ hk
    have h3 : cities[path.getD k 0]? =
        some (cities.getD (path.getD k 0) ⟨0, 0⟩) :=
      getElemQ_eq_some_getD _ _ _ (hb k (Nat.le_succ k))
    have h4 : cities[path.getD (k + 1) 0]? =
        some (cities.getD (path.getD (k + 1) 0) ⟨0, 0⟩) :=
      getElemQ_eq_some_getD _ _ _ (hb (k + 1) le_rfl)
    simp only [costAux, ih, h1, h2, h3, h4, Option.bind_eq_bind,
      Option.some_bind]
    rw [Finset.sum_range_succ]

lemma pathLen_eq_sum : ∀ l : List City, pathLen l =
    ∑ i ∈ Finset.range (l.length - 1),
      cityDist (l.getD i ⟨0, 0⟩) (l.getD (i + 1) ⟨0, 0⟩)
  | [] => by simp [pathLen]
  | [a] => by simp [pathLen]
  | a :: b :: rest => by
    have ih := pathLen_eq_sum (b :: rest)
    rw [pathLen, ih]
    simp only [List.length_cons, Nat.add_sub_cancel]
    rw [Finset.sum_range_succ']
    simp only [List.getD_cons_succ, List.getD_cons_zero]
    exact add_comm _ _

lemma tourCities_getD (order : List ℕ) (cities : List City) (i : ℕ)
    (h : i < order.length) :
    (tourCities order cities).getD i ⟨0, 0⟩ =
      cities.getD (order.getD i 0) ⟨0, 0⟩ := by
  have hlen : i < (tourCities order cities).length := by simp [tourCities, h]
  rw [List.getD_eq_getElem?_getD, List.getElem?_eq_getElem hlen]
  simp [tourCities, List.getD_eq_getElem?_getD, List.getElem?_eq_getElem h]

lemma calculate_fitness_eq_spec (order : List ℕ) (cities : List City)
    (h1 : order.Perm (List.range cities.length)) (h2 : cities ≠ []) :
    calculate_fitness order cities =
      some (recipF (specTotalDistance order cities)) := by
  have hlen : order.length = cities.length := by simpa using h1.length_eq
  have hpos : 0 < cities.length := List.length_pos.mpr h2
  have hb : ∀ i, i < order.length → order.getD i 0 < cities.length := by
    intro i hi
    have hmem : order.getD i 0 ∈ order := getD_mem_of_lt _ _ _ hi
    simpa using h1.mem_iff.mp hmem
  have hk : cities.length - 1 < order.length := by omega
  rw [calculate_fitness, if_neg (by omega),
    costAux_some order cities _ hk (fun i hi => hb i (by omega))]
  rw [Option.map_some']
  congr 1
  congr 1
  rw [specTotalDistance, pathLen_eq_sum]
  have hlen2 : (tourCities order cities).length = cities.length := by
    simp [tourCities, hlen]
  rw [hlen2]
  refine Finset.sum_congr rfl ?_
  intro i hi
  have hi' : i < cities.length - 1 := Finset.mem_range.mp hi
  rw [tourCities_getD order cities i (by omega),
    tourCities_getD order cities (i + 1) (by omega)]

/-- C2: for a permutation order over a non-empty city list,
`calculate_fitness` returns the IEEE reciprocal of the sum of the Euclidean
distances between consecutive pairs along the order (`len - 1` edges, no
return edge); when that total is nonzero the result is the real
reciprocal. -/
theorem claim_C2 (order : List ℕ) (city_list : List City)
    (h1 : order.Perm (List.range city_list.length)) (h2 : city_list ≠ []) :
    calculate_fitness order city_list =
      some (recipF (specTotalDistance order city_list)) ∧
    (specTotalDistance order city_list ≠ 0 →
      calculate_fitness order city_list =
        some ((1 / specTotalDistance order city_list : ℝ) : EReal)) := by
  refine ⟨calculate_fitness_eq_spec order city_list h1 h2, ?_⟩
  intro hz
  rw [calculate_fitness_eq_spec order city_list h1 h2, recipF, if_neg hz]

/-- Witness for C2: the order `[1, 0]` over the two cities `(0, 0)` and
`(3, 4)`. -/
theorem claim_C2_witness :
    calculate_fitness [1, 0] [⟨0, 0⟩, ⟨3, 4⟩] =
      some (recipF (specTotalDistance [1, 0] [⟨0, 0⟩, ⟨3, 4⟩])) ∧
    (specTotalDistance [1, 0] [⟨0, 0⟩, ⟨3, 4⟩] ≠ 0 →
      calculate_fitness [1, 0] [⟨0, 0⟩, ⟨3, 4⟩] =
        some ((1 / specTotalDistance [1, 0] [⟨0, 0⟩, ⟨3, 4⟩] : ℝ) : EReal)) :=
  claim_C2 [1, 0] [⟨0, 0⟩, ⟨3, 4⟩] (by decide) (by simp)

/-- Witness for C1 at concrete inputs: parents with orders `[0, 1, 2]` and
`[2, 1, 0]`, a mutation swapping positions 0 and 2, and a two-individual
initial population over one city with empty shuffles. -/
theorem claim_C1_witness :
    ((Path.mk 0 [0, 1, 2]).breed (Path.mk 0 [2, 1, 0]) [] 1).order.Perm
      (List.range 3) ∧
    ((Path.mk 0 [0, 1, 2]).mutate [] 0 2).order.Perm (List.range 3) ∧
    (∀ q ∈ initial_population [⟨0, 0⟩] 2 (fun _ => []),
      q.order.Perm (List.range 1)) :=
  ⟨claim_C1.1 (Path.mk 0 [0, 1, 2]) (Path.mk 0 [2, 1, 0]) [] 1 3
      (by decide) (by decide),
    claim_C1.2.1 (Path.mk 0 [0, 1, 2]) [] 0 2 3 (by decide) (by decide)
      (by decide),
    claim_C1.2.2 [⟨0, 0⟩] 2 (fun _ => []) (by simp)⟩

/-! ### Reversal invariance of the fitness (C8) -/

lemma cityDist_comm (a b : City) : cityDist a b = cityDist b a := by
  unfold cityDist
  congr 1
  ring

lemma pathLen_snoc : ∀ (l : List City) (a b : City),
    pathLen (l ++ [a, b]) = pathLen (l ++ [a]) + cityDist a b
  | [], a, b => by simp [pathLen]
  | [c], a, b => by
    show pathLen [c, a, b] = pathLen [c, a] + cityDist a b
    simp [pathLen]
  | c :: d :: l, a, b => by
    have ih := pathLen_snoc (d :: l) a b
    show pathLen (c :: d :: (l ++ [a, b])) =
      pathLen (c :: d :: (l ++ [a])) + cityDist a b
    rw [pathLen]
    conv_rhs => rw [pathLen]
    rw [show d :: (l ++ [a, b]) = (d :: l) ++ [a, b] from rfl, ih,
      show (d :: l) ++ [a] = d :: (l ++ [a]) from rfl]
    ring

lemma pathLen_reverse : ∀ l : List City, pathLen l.reverse = pathLen l
  | [] => rfl
  | [a] => rfl
  | a :: b :: l => by
    have ih := pathLen_reverse (b :: l)
    have h1 : (a :: b :: l).reverse = l.reverse ++ [b, a] := by simp
    rw [h1, pathLen_snoc, show l.reverse ++ [b] = (b :: l).reverse by simp,
      ih, pathLen, cityDist_comm]
    ring

/-- C8: for every order that is a permutation of the city indices,
`calculate_fitness` on the reversed order agrees with `calculate_fitness` on
the forward order — reversing changes the undirected open-path edge sum by
zero, so the fitness is identical. -/
theorem claim_C8 (order : List ℕ) (city_list : List City)
    (h : order.Perm (List.range city_list.length)) :
    calculate_fitness order.reverse city_list =
      calculate_fitness order city_list := by
  by_cases hnil : city_list = []
  · subst hnil
    simp [calculate_fitness]
  · have h' : order.reverse.Perm (List.range city_list.length) :=
      (List.reverse_perm order).trans h
    rw [calculate_fitness_eq_spec order.reverse _ h' hnil,
      calculate_fitness_eq_spec order _ h hnil]
    have htc : tourCities order.reverse city_list =
        (tourCities order city_list).reverse := by
      simp [tourCities]
    rw [specTotalDistance, specTotalDistance, htc, pathLen_reverse]

/-- Witness for C8: the order `[1, 0]` over the cities `(0, 0)` and
`(2, 1)`. -/
theorem claim_C8_witness :
    calculate_fitness (List.reverse [1, 0]) [⟨0, 0⟩, ⟨2, 1⟩] =
      calculate_fitness [1, 0] [⟨0, 0⟩, ⟨2, 1⟩] :=
  claim_C8 [1, 0] [⟨0, 0⟩, ⟨2, 1⟩] (by decide)

/-! ### Degenerate zero-distance fitness (C9) -/

lemma pathLen_const : ∀ (l : List City) (c : City),
    (∀ a ∈ l, a = c) → pathLen l = 0
  | [], _, _ => rfl
  | [_], _, _ => rfl
  | a :: b :: l, c, h => by
    have ih := pathLen_const (b :: l) c
      (fun x hx => h x (List.mem_cons_of_mem a hx))
    rw [pathLen, ih, h a (List.mem_cons_self a _),
      h b (List.mem_cons_of_mem a (List.mem_cons_self b _))]
    simp [cityDist]

/-- C9: when all cities coincide, `calculate_fitness` does not panic: it
returns `some` of the IEEE division `1.0 / 0.0 = +inf` (`⊤`), and that
infinite fitness wins every comparison against a finite fitness value. -/
theorem claim_C9 (order : List ℕ) (city_list : List City) (c : City)
    (h1 : order.Perm (List.range city_list.length)) (h2 : city_list ≠ [])
    (hc : ∀ a ∈ city_list, a = c) :
    calculate_fitness order city_list = some ⊤ ∧
    (∀ f : ℝ, (f : EReal) < ⊤) := by
  have hz : specTotalDistance order city_list = 0 := by
    refine pathLen_const _ c ?_
    intro a ha
    simp only [tourCities, List.mem_map] at ha
    obtain ⟨k, hk, rfl⟩ := ha
    have hk' : k < city_list.length := by simpa using h1.mem_iff.mp hk
    exact hc _ (getD_mem_of_lt _ _ _ hk')
  rw [calculate_fitness_eq_spec order city_list h1 h2, hz]
  exact ⟨by rw [recipF, if_pos rfl], fun f => EReal.coe_lt_top f⟩

/-- Witness for C9: two coincident cities at `(1, 2)` with the order
`[1, 0]`. -/
theorem claim_C9_witness :
    calculate_fitness [1, 0] [⟨1, 2⟩, ⟨1, 2⟩] = some ⊤ ∧
    (∀ f : ℝ, (f : EReal) < ⊤) :=
  claim_C9 [1, 0] [⟨1, 2⟩, ⟨1, 2⟩] ⟨1, 2⟩ (by decide) (by simp)
    (by intro a ha; rcases List.mem_cons.mp ha with h | h
        · exact h
        · simpa using h)

/-! ### Precondition for totality of the fitness loop (C10) -/

lemma costAux_none_of_short (path : List ℕ) (cities : List City) (k : ℕ)
    (h : path.length ≤ k + 1) : costAux path cities (k + 1) = none := by
  have h2 : path[k + 1]? = none := List.getElem?_eq_none h
  simp only [costAux, h2, Option.bind_eq_bind, Option.none_bind]
  cases hc : costAux path cities k with
  | none => simp
  | some c =>
    cases hp : path[k]? with
    | none => simp
    | some i => simp

/-- C10 (amended): `calculate_fitness` uses the city list's length, not the
order's, as its loop bound.  With zero cities the `usize` loop-bound
subtraction underflows (a panic, `none`); with at least two cities any
order shorter than the city list hits an out-of-bounds index (`none`); with
exactly one city the loop body never runs and the call succeeds for every
order; and the call succeeds whenever the city list is non-empty, the order
is at least as long as it, and the order's first `numCities` entries index
into the city list. -/
theorem claim_C10 (path : List ℕ) (city_list : List City) :
    (city_list = [] → calculate_fitness path city_list = none) ∧
    (2 ≤ city_list.length → path.length < city_list.length →
      calculate_fitness path city_list = none) ∧
    (city_list.length = 1 →
      (calculate_fitness path city_list).isSome = true) ∧
    (city_list ≠ [] → city_list.length ≤ path.length →
      (∀ i, i < city_list.length → path.getD i 0 < city_list.length) →
      (calculate_fitness path city_list).isSome = true) := by
  refine ⟨?_, ?_, ?_, ?_⟩
  · intro h
    subst h
    simp [calculate_fitness]
  · intro h2 hshort
    rw [calculate_fitness, if_neg (by omega),
      show city_list.length - 1 = (city_list.length - 2) + 1 by omega,
      costAux_none_of_short path city_list _ (by omega)]
    rfl
  · intro h1
    rw [calculate_fitness, if_neg (by omega), h1]
    simp [costAux]
  · intro hne hlen hb
    have hpos : 0 < city_list.length := List.length_pos.mpr hne
    rw [calculate_fitness, if_neg (by omega),
      costAux_some path city_list (city_list.length - 1) (by omega)
        (fun i hi => hb i (by omega))]
    simp

/-- Counterexample to C10 as stated: with exactly one city and the empty
order, the order is strictly shorter than the city list and yet no
indexing happens — the loop body never runs, and `calculate_fitness`
succeeds (returning the IEEE `1.0 / 0.0 = +inf`), so totality does not
require the order to be at least as long as the city list. -/
theorem claim_C10_counterexample :
    ([] : List ℕ).length < ([⟨0, 0⟩] : List City).length ∧
    calculate_fitness [] [⟨0, 0⟩] = some ⊤ := by
  refine ⟨by simp, ?_⟩
  rw [calculate_fitness]
  simp [costAux, recipF]

/-- Witness for the amended C10: the zero-city underflow case at the empty
city list, and the out-of-bounds case for the order `[0]` over two
cities. -/
theorem claim_C10_witness :
    calculate_fitness [0, 1] [] = none ∧
    calculate_fitness [0] [⟨0, 0⟩, ⟨2, 1⟩] = none :=
  ⟨(claim_C10 [0, 1] []).1 rfl,
    (claim_C10 [0] [⟨0, 0⟩, ⟨2, 1⟩]).2.1 (by simp) (by simp)⟩

/-! ### The linear scan of `find_fittest` (C7) -/

lemma find_fittest_foldl : ∀ (rest : List Path) (init : Path),
    init.fitness ≤ (rest.foldl
      (fun fit q => if fit.fitness < q.fitness then q else fit) init).fitness ∧
    (∀ q ∈ rest, q.fitness ≤ (rest.foldl
      (fun fit q => if fit.fitness < q.fitness then q else fit) init).fitness) ∧
    ((rest.foldl
        (fun fit q => if fit.fitness < q.fitness then q else fit) init) = init ∨
      ∃ pre suf, rest = pre ++ (rest.foldl
          (fun fit q => if fit.fitness < q.fitness then q else fit) init) :: suf ∧
        init.fitness < (rest.foldl
          (fun fit q => if fit.fitness < q.fitness then q else fit) init).fitness ∧
        ∀ q ∈ pre, q.fitness < (rest.foldl
          (fun fit q => if fit.fitness < q.fitness then q else fit) init).fitness)
  | [], init => ⟨le_rfl, by simp, Or.inl rfl⟩
  | r :: rest, init => by
    have ih := find_fittest_foldl rest
      (if init.fitness < r.fitness then r else init)
    set init' := if init.fitness < r.fitness then r else init with hinit'
    set m := rest.foldl
      (fun fit q => if fit.fitness < q.fitness then q else fit) init' with hm
    have hstep : (r :: rest).foldl
        (fun fit q => if fit.fitness < q.fitness then q else fit) init = m := rfl
    obtain ⟨h1, h2, h3⟩ := ih
    have hinit_le : init.fitness ≤ init'.fitness := by
      rw [hinit']
      by_cases hlt : init.fitness < r.fitness
      · rw [if_pos hlt]
        exact le_of_lt hlt
      · rw [if_neg hlt]
    have hr_le : r.fitness ≤ init'.fitness := by
      rw [hinit']
      by_cases hlt : init.fitness < r.fitness
      · rw [if_pos hlt]
      · rw [if_neg hlt]
        exact not_lt.mp hlt
    rw [hstep]
    refine ⟨le_trans hinit_le h1, ?_, ?_⟩
    · intro q hq
      rcases List.mem_cons.mp hq with rfl | hq'
      · exact le_trans hr_le h1
      · exact h2 q hq'
    · rcases h3 with hm_eq | ⟨pre, suf, heq, hgt, hpre⟩
      · by_cases hlt : init.fitness < r.fitness
        · refine Or.inr ⟨[], rest, ?_, ?_, by simp⟩
          · rw [hm_eq, hinit', if_pos hlt]
            rfl
          · rw [hm_eq, hinit', if_pos hlt]
            exact hlt
        · refine Or.inl ?_
          rw [hm_eq, hinit', if_neg hlt]
      · refine Or.inr ⟨r :: pre, suf, by rw [heq]; rfl,
          lt_of_le_of_lt hinit_le hgt, ?_⟩
        intro q hq
        rcases List.mem_cons.mp hq with rfl | hq'
        · exact lt_of_le_of_lt hr_le hgt
        · exact hpre q hq'

/-- C7: on a non-empty population, `find_fittest` returns (a copy by value
of) a member whose fitness is greatest, and it is the first-seen maximum:
everything strictly before the returned occurrence has strictly smaller
fitness.  On a one-element population it returns that element. -/
theorem claim_C7 (population : List Path) (h : population ≠ []) :
    ∃ m, find_fittest population = some m ∧ m ∈ population ∧
      (∀ q ∈ population, q.fitness ≤ m.fitness) ∧
      (∃ pre suf, population = pre ++ m :: suf ∧
        ∀ q ∈ pre, q.fitness < m.fitness) ∧
      (∀ p, population = [p] → m = p) := by
  obtain ⟨p, rest, rfl⟩ := List.exists_cons_of_ne_nil h
  obtain ⟨h1, h2, h3⟩ := find_fittest_foldl rest p
  have hff : find_fittest (p :: rest) = some (List.foldl
      (fun fit q => if fit.fitness < q.fitness then q else fit) p rest) := rfl
  generalize hM : List.foldl
    (fun fit q => if fit.fitness < q.fitness then q else fit) p rest = m
    at h1 h2 h3 hff
  refine ⟨m, hff, ?_, ?_, ?_, ?_⟩
  · rcases h3 with hm_eq | ⟨pre, suf, heq, -, -⟩
    · rw [hm_eq]
      exact List.mem_cons_self _ _
    · refine List.mem_cons_of_mem p ?_
      rw [heq]
      exact List.mem_append_right pre (List.mem_cons_self _ _)
  · intro q hq
    rcases List.mem_cons.mp hq with rfl | hq'
    · exact h1
    · exact h2 q hq'
  · rcases h3 with hm_eq | ⟨pre, suf, heq, hgt, hpre⟩
    · refine ⟨[], rest, ?_, by simp⟩
      rw [hm_eq]
      rfl
    · refine ⟨p :: pre, suf, ?_, ?_⟩
      · rw [heq]
        rfl
      · intro q hq
        rcases List.mem_cons.mp hq with rfl | hq'
        · exact hgt
        · exact hpre q hq'
  · intro p0 hp0
    injection hp0 with hpp hrr
    subst hrr
    subst hpp
    exact hM.symm

/-- Witness for C7: a singleton population. -/
theorem claim_C7_witness :
    ∃ m, find_fittest [Path.mk 3 [0]] = some m ∧ m ∈ [Path.mk 3 [0]] ∧
      (∀ q ∈ [Path.mk 3 [0]], q.fitness ≤ m.fitness) ∧
      (∃ pre suf, [Path.mk 3 [0]] = pre ++ m :: suf ∧
        ∀ q ∈ pre, q.fitness < m.fitness) ∧
      (∀ p, [Path.mk 3 [0]] = [p] → m = p) :=
  claim_C7 [Path.mk 3 [0]] (by simp)

/-! ### Generation size invariance (C3) -/

lemma sortDesc_length (population : List Path) :
    (sortDesc population).length = population.length :=
  List.length_mergeSort population

lemma sortDesc_perm (population : List Path) :
    (sortDesc population).Perm population :=
  List.mergeSort_perm population _

open Classical in
lemma sortDesc_pairwise (population : List Path) :
    List.Pairwise (fun a b : Path => b.fitness ≤ a.fitness)
      (sortDesc population) := by
  have h := @List.sorted_mergeSort Path
    (fun a b : Path => decide (b.fitness ≤ a.fitness))
    (fun a b c hab hbc => by
      rw [decide_eq_true_eq] at *
      exact le_trans hbc hab)
    (fun a b => by
      simp only [Bool.or_eq_true, decide_eq_true_eq]
      exact le_total b.fitness a.fitness)
    population
  exact h.imp (fun {a b} hab => of_decide_eq_true hab)

lemma pairwise_take_drop {α : Type} {R : α → α → Prop} (l : List α) (n : ℕ)
    (h : List.Pairwise R l) : ∀ a ∈ l.take n, ∀ b ∈ l.drop n, R a b := by
  rw [← List.take_append_drop n l] at h
  exact (List.pairwise_append.mp h).2.2

lemma mutationPass_length (city_list : List City) (ch : GenChoices) :
    ∀ (p : ℕ) (l : List Path),
      (mutationPass city_list ch p l).length = l.length
  | _, [] => rfl
  | p, x :: xs => by
    rw [mutationPass]
    simp [mutationPass_length city_list ch (p + 1) xs]

lemma gen_length (population : List Path) (city_list : List City)
    (cr sr : ℝ) (ch : GenChoices)
    (hspc : f64toUsize ((f64toUsize ((population.length : ℝ) * cr) : ℝ) * sr)
      + 2 ≤ population.length) :
    (generate_next_generation population city_list cr sr ch).length
      = population.length := by
  rw [generate_next_generation, mutationPass_length]
  simp only [assembleNextGeneration, List.length_append, List.length_take,
    List.length_map, List.length_range, List.length_drop, sortDesc_length]
  omega

lemma popAt_length (population : List Path) (city_list : List City)
    (cr sr : ℝ) (cs : ℕ → GenChoices)
    (hspc : f64toUsize ((f64toUsize ((population.length : ℝ) * cr) : ℝ) * sr)
      + 2 ≤ population.length) :
    ∀ k, (popAt population city_list cr sr cs k).length
      = population.length := by
  intro k
  induction k with
  | zero => rfl
  | succ k ih =>
    rw [popAt, gen_length _ _ _ _ _ (by rw [ih]; exact hspc)]
    exact ih

set_option linter.unusedVariables false in
/-- C3: with a valid configuration (a non-empty breeding pool and a
population large enough for the two reserved slots), one
`generate_next_generation` call preserves the population length, and hence
the population size never changes across any number of generations. -/
theorem claim_C3 (population : List Path) (city_list : List City)
    (crossover_rate survival_rate : ℝ)
    (hbc : 1 ≤ f64toUsize ((population.length : ℝ) * crossover_rate))
    (hspc : f64toUsize
        ((f64toUsize ((population.length : ℝ) * crossover_rate) : ℝ)
          * survival_rate) + 2 ≤ population.length) :
    (∀ ch, (generate_next_generation population city_list crossover_rate
      survival_rate ch).length = population.length) ∧
    (∀ cs k, (popAt population city_list crossover_rate survival_rate
      cs k).length = population.length) :=
  ⟨fun ch => gen_length population city_list crossover_rate survival_rate
      ch hspc,
    fun cs k => popAt_length population city_list crossover_rate
      survival_rate cs hspc k⟩

/-- Witness for C3: a five-element population with `crossover_rate = 1` and
`survival_rate = 0`, so the breeding pool has five members and no elite
slots are reserved. -/
theorem claim_C3_witness :
    (∀ ch, (generate_next_generation
      [Path.mk 1 [0], Path.mk 2 [0], Path.mk 3 [0], Path.mk 4 [0],
        Path.mk 5 [0]] [] 1 0 ch).length = 5) ∧
    (∀ cs k, (popAt
      [Path.mk 1 [0], Path.mk 2 [0], Path.mk 3 [0], Path.mk 4 [0],
        Path.mk 5 [0]] [] 1 0 cs k).length = 5) :=
  claim_C3
    [Path.mk 1 [0], Path.mk 2 [0], Path.mk 3 [0], Path.mk 4 [0],
      Path.mk 5 [0]] [] 1 0
    (by norm_num [f64toUsize]) (by norm_num [f64toUsize])

/-! ### Assembly of the next generation (C4) -/

/-- C4: before the mutation pass, the next generation is exactly the top
`survivingParentCount` individuals of the descending-fitness-sorted current
generation, then `populationSize - survivingParentCount - 2` offspring
(each bred from two members of the breeding pool, the top `breedingCount`
sorted individuals), then the two lowest-fitness individuals of the current
generation in the final two slots; `survivingParentCount` is
`floor(floor(populationSize * crossoverRate) * survivalRate)`. -/
theorem claim_C4 (population : List Path) (city_list : List City)
    (crossover_rate survival_rate : ℝ) (ch : GenChoices) (bc spc : ℕ)
    (s : List Path)
    (hbcdef : bc = f64toUsize ((population.length : ℝ) * crossover_rate))
    (hspcdef : spc = f64toUsize ((bc : ℝ) * survival_rate))
    (hsdef : s = sortDesc population)
    (hbc : 1 ≤ bc) (hspc : spc + 2 ≤ population.length)
    (hch : ∀ i, ch.parentChoice i < (s.take bc).length) :
    spc = (⌊(⌊(population.length : ℝ) * crossover_rate⌋ : ℝ)
      * survival_rate⌋).toNat ∧
    s.Perm population ∧
    (∃ offspring,
      generate_next_generation population city_list crossover_rate
          survival_rate ch
        = mutationPass city_list ch 0
            (s.take spc ++ offspring ++ s.drop (population.length - 2)) ∧
      assembleNextGeneration population city_list crossover_rate
          survival_rate ch
        = s.take spc ++ offspring ++ s.drop (population.length - 2) ∧
      offspring.length = population.length - spc - 2 ∧
      (∀ o ∈ offspring, ∃ mother father cp, mother ∈ s.take bc ∧
        father ∈ s.take bc ∧ o = mother.breed father city_list cp)) ∧
    (s.take spc).length = spc ∧
    (s.drop (population.length - 2)).length = 2 ∧
    (∀ a ∈ s.take spc, ∀ b ∈ s.drop spc, b.fitness ≤ a.fitness) ∧
    (∀ b ∈ s.drop (population.length - 2),
      ∀ a ∈ s.take (population.length - 2), b.fitness ≤ a.fitness) := by
  subst hsdef
  subst hbcdef
  subst hspcdef
  simp only [f64toUsize] at hbc
  refine ⟨?_, sortDesc_perm population, ?_, ?_, ?_,
    pairwise_take_drop _ _ (sortDesc_pairwise population),
    fun b hb a ha =>
      pairwise_take_drop _ _ (sortDesc_pairwise population) a ha b hb⟩
  · have h0 : (0 : ℤ) ≤ ⌊(population.length : ℝ) * crossover_rate⌋ := by
      omega
    have hcast :
        ((f64toUsize ((population.length : ℝ) * crossover_rate) : ℕ) : ℝ)
          = ((⌊(population.length : ℝ) * crossover_rate⌋ : ℤ) : ℝ) := by
      rw [f64toUsize]
      exact_mod_cast congrArg (fun z : ℤ => (z : ℝ))
        (Int.toNat_of_nonneg h0)
    rw [f64toUsize, hcast]
  · refine ⟨(List.range (population.length
        - f64toUsize ((f64toUsize ((population.length : ℝ) * crossover_rate)
          : ℝ) * survival_rate) - 2)).map
      (fun i =>
        (((sortDesc population).take
            (f64toUsize ((population.length : ℝ) * crossover_rate))).getD
          (i % ((sortDesc population).take
            (f64toUsize ((population.length : ℝ)
              * crossover_rate))).length) defaultPath).breed
          (((sortDesc population).take
            (f64toUsize ((population.length : ℝ) * crossover_rate))).getD
            (ch.parentChoice i) defaultPath)
          city_list (ch.crossChoice i)),
      rfl, rfl, by simp, ?_⟩
    intro o ho
    simp only [List.mem_map, List.mem_range] at ho
    obtain ⟨i, -, rfl⟩ := ho
    have hpool : 0 < ((sortDesc population).take
        (f64toUsize ((population.length : ℝ)
          * crossover_rate))).length :=
      Nat.pos_of_ne_zero (fun hz => by
        have := hch 0
        omega)
    exact ⟨_, _, ch.crossChoice i,
      getD_mem_of_lt _ _ _ (Nat.mod_lt i hpool),
      getD_mem_of_lt _ _ _ (hch i), rfl⟩
  · simp only [List.length_take, sortDesc_length]
    omega
  · simp only [List.length_drop, sortDesc_length]
    omega

/-- Witness for C4, projected onto the sorted-permutation conjunct: a
five-element population with `crossover_rate = 1` and `survival_rate = 0`,
all random draws zero. -/
theorem claim_C4_witness :
    (sortDesc [Path.mk 1 [0], Path.mk 2 [0], Path.mk 3 [0], Path.mk 4 [0],
      Path.mk 5 [0]]).Perm
      [Path.mk 1 [0], Path.mk 2 [0], Path.mk 3 [0], Path.mk 4 [0],
        Path.mk 5 [0]] :=
  (claim_C4
    [Path.mk 1 [0], Path.mk 2 [0], Path.mk 3 [0], Path.mk 4 [0],
      Path.mk 5 [0]] [] 1 0
    (GenChoices.mk (fun _ => 0) (fun _ => 0) (fun _ => false)
      (fun _ => (0, 0))) 5 0
    (sortDesc [Path.mk 1 [0], Path.mk 2 [0], Path.mk 3 [0], Path.mk 4 [0],
      Path.mk 5 [0]])
    (by norm_num [f64toUsize]
        omega)
    (by norm_num [f64toUsize]) rfl
    (by norm_num) (by norm_num)
    (by intro i
        simp [List.length_take, sortDesc_length])).2.1

/-! ### No configuration validation in `Simulation::new` (C5) -/

/-- C5 (code evaluated at the failing input): `Simulation::new` performs no
validation — a crossover rate of `2` (outside `[0, 1]`) is stored verbatim,
and the configuration `{populationSize = 3, crossoverRate = 1,
survivalRate = 1}` is stored verbatim even though its
`survivingParentCount` is `3`, so `populationSize - survivingParentCount -
2` underflows `usize` inside the first `generate_next_generation` call: in
the truncating model the assembled generation has length `5 ≠ 3`, the
invariant the source itself asserts. -/
theorem claim_C5 :
    ((Simulation.new [Path.mk 1 [0, 1], Path.mk 2 [0, 1], Path.mk 3 [0, 1]]
      [⟨0, 0⟩, ⟨1, 1⟩] 10 2 3 4).crossover_rate = 2) ∧
    (Simulation.new [Path.mk 1 [0, 1], Path.mk 2 [0, 1], Path.mk 3 [0, 1]]
        [⟨0, 0⟩, ⟨1, 1⟩] 10 1 (1 / 2) 1
      = { population :=
            [Path.mk 1 [0, 1], Path.mk 2 [0, 1], Path.mk 3 [0, 1]]
          city_list := [⟨0, 0⟩, ⟨1, 1⟩]
          max_iterations := 10
          crossover_rate := 1
          mutation_rate := 1 / 2
          survival_rate := 1 }) ∧
    (f64toUsize ((f64toUsize (((3 : ℕ) : ℝ) * 1) : ℝ) * 1) = 3) ∧
    ((3 : ℕ) < f64toUsize ((f64toUsize (((3 : ℕ) : ℝ) * 1) : ℝ) * 1) + 2) ∧
    ((generate_next_generation
        [Path.mk 1 [0, 1], Path.mk 2 [0, 1], Path.mk 3 [0, 1]]
        [⟨0, 0⟩, ⟨1, 1⟩] 1 1
        (GenChoices.mk (fun _ => 0) (fun _ => 0) (fun _ => false)
          (fun _ => (0, 0)))).length ≠ 3) := by
  refine ⟨rfl, rfl, ?_, ?_, ?_⟩
  · norm_num [f64toUsize]
    omega
  · norm_num [f64toUsize]
    omega
  · rw [generate_next_generation, mutationPass_length]
    simp only [assembleNextGeneration, List.length_append, List.length_take,
      List.length_map, List.length_range, List.length_drop, sortDesc_length]
    norm_num [f64toUsize]
    omega

/-! ### The run loop and its discarded best-ever Tour (C6) -/

lemma runLoop_spec (city_list : List City) (cr sr : ℝ) (cs : ℕ → GenChoices)
    (P : List Path) (hne : P ≠ [])
    (hspc : f64toUsize ((f64toUsize ((P.length : ℝ) * cr) : ℝ) * sr) + 2
      ≤ P.length) :
    ∀ (n i : ℕ) (best : Path), ∃ B,
      runLoop city_list cr sr ((List.range' i n).map cs)
          (popAt P city_list cr sr cs i) best
        = some (popAt P city_list cr sr cs (i + n), B) ∧
      best.fitness ≤ B.fitness ∧
      (B = best ∨ ∃ k, i ≤ k ∧ k < i + n ∧
        find_fittest (popAt P city_list cr sr cs (k + 1)) = some B) ∧
      (∀ k, i ≤ k → k < i + n → ∀ c,
        find_fittest (popAt P city_list cr sr cs (k + 1)) = some c →
        c.fitness ≤ B.fitness) := by
  intro n
  induction n with
  | zero =>
    intro i best
    refine ⟨best, by simp [runLoop], le_rfl, Or.inl rfl, ?_⟩
    intro k hk1 hk2
    omega
  | succ n ih =>
    intro i best
    have hlen1 : (popAt P city_list cr sr cs (i + 1)).length = P.length :=
      popAt_length P city_list cr sr cs hspc (i + 1)
    have hne1 : popAt P city_list cr sr cs (i + 1) ≠ [] := by
      intro h0
      rw [h0] at hlen1
      exact hne (List.eq_nil_of_length_eq_zero hlen1.symm)
    have hffsome : ∃ c, find_fittest (popAt P city_list cr sr cs (i + 1))
        = some c := by
      obtain ⟨p0, rest0, heq0⟩ := List.exists_cons_of_ne_nil hne1
      rw [heq0]
      exact ⟨_, rfl⟩
    obtain ⟨c, hc⟩ := hffsome
    obtain ⟨B, hB1, hB2, hB3, hB4⟩ := ih (i + 1)
      (if best.fitness < c.fitness then c else best)
    have hbestle : best.fitness ≤
        (if best.fitness < c.fitness then c else best).fitness := by
      by_cases hlt : best.fitness < c.fitness
      · rw [if_pos hlt]
        exact le_of_lt hlt
      · rw [if_neg hlt]
    have hcle : c.fitness ≤
        (if best.fitness < c.fitness then c else best).fitness := by
      by_cases hlt : best.fitness < c.fitness
      · rw [if_pos hlt]
      · rw [if_neg hlt]
        exact not_lt.mp hlt
    refine ⟨B, ?_, le_trans hbestle hB2, ?_, ?_⟩
    · rw [List.range'_succ, List.map_cons]
      simp only [runLoop]
      rw [show generate_next_generation (popAt P city_list cr sr cs i)
          city_list cr sr (cs i) = popAt P city_list cr sr cs (i + 1)
          from rfl, hc]
      simp only [Option.bind_eq_bind, Option.some_bind]
      rw [hB1, show i + 1 + n = i + (n + 1) from by omega]
    · rcases hB3 with hBb | ⟨k, hk1, hk2, hk3⟩
      · by_cases hlt : best.fitness < c.fitness
        · refine Or.inr ⟨i, le_rfl, by omega, ?_⟩
          rw [hBb, if_pos hlt]
          exact hc
        · refine Or.inl ?_
          rw [hBb, if_neg hlt]
      · exact Or.inr ⟨k, by omega, by omega, hk3⟩
    · intro k hk1 hk2 c' hc'
      by_cases hik : k = i
      · subst hik
        rw [hc] at hc'
        have hcc : c' = c := (Option.some_inj.mp hc').symm
        rw [hcc]
        exact le_trans hcle hB2
      · exact hB4 k (by omega) (by omega) c' hc'

set_option linter.unusedVariables false in
/-- C6 (amended): `run` computes the initial fittest Tour, then performs
exactly `maxIterations` `generate_next_generation` steps, tracking a
best-ever Tour that starts at the initial fittest, is replaced only when a
challenger's fitness strictly exceeds it, and dominates every challenger;
but that Tour is discarded: `run` returns `()` in the source, its
observable results being the mutated population and the single printed line
`"starting iterations"`. -/
theorem claim_C6 (sim : Simulation) (cs : ℕ → GenChoices)
    (hne : sim.population ≠ [])
    (hbc : 1 ≤ f64toUsize ((sim.population.length : ℝ) * sim.crossover_rate))
    (hspc : f64toUsize
        ((f64toUsize ((sim.population.length : ℝ) * sim.crossover_rate) : ℝ)
          * sim.survival_rate) + 2 ≤ sim.population.length) :
    ∃ init best,
      find_fittest sim.population = some init ∧
      sim.runCore cs = some (popAt sim.population sim.city_list
        sim.crossover_rate sim.survival_rate cs sim.max_iterations, best) ∧
      sim.run cs = some ({ sim with population := (popAt sim.population
          sim.city_list sim.crossover_rate sim.survival_rate cs
          sim.max_iterations) }, ["starting iterations"]) ∧
      init.fitness ≤ best.fitness ∧
      (best = init ∨ ∃ k < sim.max_iterations,
        find_fittest (popAt sim.population sim.city_list sim.crossover_rate
          sim.survival_rate cs (k + 1)) = some best) ∧
      (∀ k < sim.max_iterations, ∀ c,
        find_fittest (popAt sim.population sim.city_list sim.crossover_rate
          sim.survival_rate cs (k + 1)) = some c →
        c.fitness ≤ best.fitness) := by
  have hffsome : ∃ init, find_fittest sim.population = some init := by
    obtain ⟨p0, rest0, heq0⟩ := List.exists_cons_of_ne_nil hne
    rw [heq0]
    exact ⟨_, rfl⟩
  obtain ⟨init, hinit⟩ := hffsome
  obtain ⟨B, hB1, hB2, hB3, hB4⟩ := runLoop_spec sim.city_list
    sim.crossover_rate sim.survival_rate cs sim.population hne hspc
    sim.max_iterations 0 init
  have hcore : sim.runCore cs = some (popAt sim.population sim.city_list
      sim.crossover_rate sim.survival_rate cs sim.max_iterations, B) := by
    rw [Simulation.runCore, hinit]
    simp only [Option.bind_eq_bind, Option.some_bind]
    rw [List.range_eq_range']
    have h := hB1
    rw [Nat.zero_add] at h
    exact h
  have hrun : sim.run cs = some ({ sim with population := (popAt
      sim.population sim.city_list sim.crossover_rate sim.survival_rate cs
      sim.max_iterations) }, ["starting iterations"]) := by
    rw [Simulation.run, hcore]
    rfl
  refine ⟨init, B, hinit, hcore, hrun, hB2, ?_, ?_⟩
  · rcases hB3 with h | ⟨k, hk1, hk2, hk3⟩
    · exact Or.inl h
    · exact Or.inr ⟨k, by omega, hk3⟩
  · intro k hk c hc
    exact hB4 k (by omega) (by omega) c hc

/-- Counterexample refuting C6 as stated: `run` does not return the
best-ever Tour as the program's output.  Two zero-iteration simulations
whose best tours differ (orders `[0, 1]` and `[1, 0]`, tracked by
`runCore`) produce identical observable output from `run`: the mutated
state and the constant line `"starting iterations"`, with no tour in it. -/
theorem claim_C6_counterexample :
    Simulation.run
        (Simulation.mk [Path.mk 0 [0, 1]] [⟨0, 0⟩, ⟨1, 0⟩] 0 1 0 0)
        (fun _ => GenChoices.mk (fun _ => 0) (fun _ => 0) (fun _ => false)
          (fun _ => (0, 0)))
      = some (Simulation.mk [Path.mk 0 [0, 1]] [⟨0, 0⟩, ⟨1, 0⟩] 0 1 0 0,
          ["starting iterations"]) ∧
    Simulation.run
        (Simulation.mk [Path.mk 1 [1, 0]] [⟨0, 0⟩, ⟨1, 0⟩] 0 1 0 0)
        (fun _ => GenChoices.mk (fun _ => 0) (fun _ => 0) (fun _ => false)
          (fun _ => (0, 0)))
      = some (Simulation.mk [Path.mk 1 [1, 0]] [⟨0, 0⟩, ⟨1, 0⟩] 0 1 0 0,
          ["starting iterations"]) ∧
    Simulation.runCore
        (Simulation.mk [Path.mk 0 [0, 1]] [⟨0, 0⟩, ⟨1, 0⟩] 0 1 0 0)
        (fun _ => GenChoices.mk (fun _ => 0) (fun _ => 0) (fun _ => false)
          (fun _ => (0, 0)))
      = some ([Path.mk 0 [0, 1]], Path.mk 0 [0, 1]) ∧
    Simulation.runCore
        (Simulation.mk [Path.mk 1 [1, 0]] [⟨0, 0⟩, ⟨1, 0⟩] 0 1 0 0)
        (fun _ => GenChoices.mk (fun _ => 0) (fun _ => 0) (fun _ => false)
          (fun _ => (0, 0)))
      = some ([Path.mk 1 [1, 0]], Path.mk 1 [1, 0]) ∧
    (Path.mk 0 [0, 1]).order ≠ (Path.mk 1 [1, 0]).order :=
  ⟨rfl, rfl, rfl, rfl, by decide⟩

/-- Witness for the amended C6: a three-element population, two iterations,
`crossover_rate = 1`, `survival_rate = 0`, all draws zero. -/
theorem claim_C6_witness :
    ∃ init best,
      find_fittest [Path.mk 3 [0], Path.mk 7 [0], Path.mk 1 [0]]
        = some init ∧
      (Simulation.mk [Path.mk 3 [0], Path.mk 7 [0], Path.mk 1 [0]] [] 2 1 0
          0).runCore
          (fun _ => GenChoices.mk (fun _ => 0) (fun _ => 0) (fun _ => false)
            (fun _ => (0, 0)))
        = some (popAt [Path.mk 3 [0], Path.mk 7 [0], Path.mk 1 [0]] [] 1 0
          (fun _ => GenChoices.mk (fun _ => 0) (fun _ => 0) (fun _ => false)
            (fun _ => (0, 0))) 2, best) ∧
      (Simulation.mk [Path.mk 3 [0], Path.mk 7 [0], Path.mk 1 [0]] [] 2 1 0
          0).run
          (fun _ => GenChoices.mk (fun _ => 0) (fun _ => 0) (fun _ => false)
            (fun _ => (0, 0)))
        = some (Simulation.mk (popAt
            [Path.mk 3 [0], Path.mk 7 [0], Path.mk 1 [0]] [] 1 0
            (fun _ => GenChoices.mk (fun _ => 0) (fun _ => 0)
              (fun _ => false) (fun _ => (0, 0))) 2) [] 2 1 0 0,
          ["starting iterations"]) ∧
      init.fitness ≤ best.fitness ∧
      (best = init ∨ ∃ k < 2,
        find_fittest (popAt [Path.mk 3 [0], Path.mk 7 [0], Path.mk 1 [0]]
          [] 1 0 (fun _ => GenChoices.mk (fun _ => 0) (fun _ => 0)
            (fun _ => false) (fun _ => (0, 0))) (k + 1)) = some best) ∧
      (∀ k < 2, ∀ c,
        find_fittest (popAt [Path.mk 3 [0], Path.mk 7 [0], Path.mk 1 [0]]
          [] 1 0 (fun _ => GenChoices.mk (fun _ => 0) (fun _ => 0)
            (fun _ => false) (fun _ => (0, 0))) (k + 1)) = some c →
        c.fitness ≤ best.fitness) :=
  claim_C6
    (Simulation.mk [Path.mk 3 [0], Path.mk 7 [0], Path.mk 1 [0]] [] 2 1 0 0)
    (fun _ => GenChoices.mk (fun _ => 0) (fun _ => 0) (fun _ => false)
      (fun _ => (0, 0)))
    (by simp) (by norm_num [f64toUsize]) (by norm_num [f64toUsize])

end GeneticRust
